import Mathlib

/-!
A verification development for the BPE trainer/tokenizer in `src/lib.rs`.

The Rust core is embedded shallowly:
* `VocabChar`, `Vocab`, `Tokenizer` mirror the structs; the per-symbol
  `Cell<usize>` marker `token_head` becomes a plain `Nat` field and mutation
  becomes explicit state passing.
* `HashSet<Vec<C>>` is modeled as a duplicate-free `List (List C)` maintained
  with insert-if-absent (`List.insert`); its iteration order never influences
  observable behaviour (only membership and the maximum over match lengths are
  used), so a list is a faithful model.
* The `HashMap` of pair statistics is modeled by the canonical grouped list
  `groupPairs (allPairs ..)`; since `HashMap` iteration order is arbitrary,
  `Vocab.mergeWith` takes the entry list as an explicit argument and theorems
  quantify over all permutations of the canonical grouping.
* Loops are modeled with explicit fuel; fuel is always sufficient in states
  where the span markers partition each word (the invariant proved below), and
  in states where the Rust loop would not terminate (a zero `token_head`,
  unreachable through the API) the fuel version merely stops.
-/

set_option linter.unusedSectionVars false

namespace BPE

variable {C : Type} [DecidableEq C]

/-- One corpus symbol with its mutable span-start marker, as in
`struct VocabChar { char, token_head: Cell<usize> }`. -/
structure VocabChar (C : Type) where
  char : C
  token_head : Nat
  deriving DecidableEq, Repr

/-- The training state, as in `struct Vocab { words, tokens }`. -/
structure Vocab (C : Type) where
  words : List (List (VocabChar C))
  tokens : List (List C)
  deriving DecidableEq, Repr

/-- The inference-time snapshot, as in `struct Tokenizer { trie: Trie<C> }`;
the trie is modeled by the list of tokens it stores (only the set matters:
tokenization queries it for matches and takes a maximum of lengths). -/
structure Tokenizer (C : Type) where
  trie : List (List C)
  deriving DecidableEq, Repr

/-- `Vocab::new`: every symbol gets `token_head = 1`; empty words are
discarded; the token set starts empty. -/
def Vocab.new (ws : List (List C)) : Vocab C :=
  { words := (ws.map (fun w => w.map (fun c => ⟨c, 1⟩))).filter (fun w => !w.isEmpty)
    tokens := [] }

/-- The `token_head` marker at position `p` (`word[p].token_head.get()`); the
out-of-range default is irrelevant: the source only reads in range. -/
def headAt (w : List (VocabChar C)) (p : Nat) : Nat :=
  match w[p]? with
  | some x => x.token_head
  | none => 1

/-- `word[a_pos..][..len].iter().map(|x| x.char.clone()).collect()`. -/
def sliceTok (w : List (VocabChar C)) (p len : Nat) : List C :=
  ((w.drop p).take len).map VocabChar.char

/-- The symbols of a word, forgetting the markers. -/
def charsOf (w : List (VocabChar C)) : List C :=
  w.map VocabChar.char

/-- The scan loop inside `Vocab::merge`: walk the span starts of one word and
record each adjacent-span pair as (concatenated symbols, start position), in
scan order.  Fuel replaces the source's unbounded `loop`. -/
def scanPairs (w : List (VocabChar C)) : Nat → Nat → List (List C × Nat)
  | 0, _ => []
  | fuel+1, a_pos =>
    let a_len := headAt w a_pos
    let b_pos := a_pos + a_len
    if w.length ≤ b_pos then []
    else
      (sliceTok w a_pos (a_len + headAt w b_pos), a_pos) :: scanPairs w fuel b_pos

/-- All pair occurrences of the corpus in scan order, tagged with the word
index (`for word in &self.words { .. }`). -/
def allPairsFrom (i : Nat) : List (List (VocabChar C)) → List (List C × Nat × Nat)
  | [] => []
  | w :: rest =>
      (scanPairs w (w.length + 1) 0).map (fun kp => (kp.1, i, kp.2)) ++
        allPairsFrom (i + 1) rest

/-- All pair occurrences of the corpus. -/
def allPairs (words : List (List (VocabChar C))) : List (List C × Nat × Nat) :=
  allPairsFrom 0 words

/-- The occurrence list the `HashMap` accumulates for one key
(`pairs.entry(token).or_default().push(..)`): all occurrences with that key,
in push (= scan) order. -/
def occsOf (l : List (List C × Nat × Nat)) (k : List C) : List (Nat × Nat) :=
  (l.filter (fun e => e.1 == k)).map (fun e => e.2)

/-- The distinct keys of the pair map. -/
def keysOf (l : List (List C × Nat × Nat)) : List (List C) :=
  (l.map (fun e => e.1)).dedup

/-- The grouped pair statistics: one entry per distinct key, carrying that
key's occurrence list.  This is the content of the source's `HashMap`; its
iteration order being arbitrary, theorems below quantify over permutations of
this canonical list. -/
def groupPairs (l : List (List C × Nat × Nat)) : List (List C × List (Nat × Nat)) :=
  (keysOf l).map (fun k => (k, occsOf l k))

/-- `Iterator::max_by_key` on `|(_, v)| v.len()`: the maximum by occurrence
count, returning the last maximal element of the traversal, `None` on empty. -/
def maxByCount (l : List (List C × List (Nat × Nat))) :
    Option (List C × List (Nat × Nat)) :=
  l.foldl
    (fun acc e =>
      match acc with
      | none => some e
      | some a => if a.2.length ≤ e.2.length then some e else some a)
    none

/-- `word[p].token_head.set(L)` on one word. -/
def setHead (w : List (VocabChar C)) (p L : Nat) : List (VocabChar C) :=
  match w[p]? with
  | some x => w.set p { x with token_head := L }
  | none => w

/-- `for a in best.1 { a.token_head.set(best.0.len()) }`: set the marker of
every recorded occurrence (word index, position) to `L`. -/
def commitOccs (words : List (List (VocabChar C))) (L : Nat)
    (occs : List (Nat × Nat)) : List (List (VocabChar C)) :=
  occs.foldl (fun ws ip => ws.set ip.1 (setHead (ws.getD ip.1 []) ip.2 L)) words

/-- One round of `Vocab::merge`, with the pair-map entry list passed
explicitly (it is produced by an unordered `HashMap`, so its order is
arbitrary).  Returns the `Result` together with the (possibly updated) state:
on failure the state is returned untouched, mirroring the early `?` return. -/
def Vocab.mergeWith (v : Vocab C) (entries : List (List C × List (Nat × Nat)))
    (min_freq : Nat) : Except Unit Unit × Vocab C :=
  match maxByCount (entries.filter (fun e => min_freq ≤ e.2.length)) with
  | none => (Except.error (), v)
  | some best =>
      (Except.ok (),
        { words := commitOccs v.words best.1.length best.2
          tokens := v.tokens.insert best.1 })

/-- `Vocab::merge` run with one admissible iteration order (the canonical
grouping order). -/
def Vocab.merge (v : Vocab C) (min_freq : Nat) : Except Unit Unit × Vocab C :=
  v.mergeWith (groupPairs (allPairs v.words)) min_freq

/-- `Vocab::build`: the snapshot owns its own copy of the token set
(`builder.push(x)` copies each token into a fresh trie). -/
def Vocab.build (v : Vocab C) : Tokenizer C :=
  { trie := v.tokens }

/-- Lengths of all trie tokens that are a prefix of `w`
(`common_prefix_search(word).map(|x| x.len())`). -/
def matchLens (trie : List (List C)) (w : List C) : List Nat :=
  (trie.filter (fun t => t.isPrefixOf w)).map List.length

/-- `.max().unwrap_or(1)`. -/
def nextLen (trie : List (List C)) (w : List C) : Nat :=
  match matchLens trie w with
  | [] => 1
  | n :: ns => ns.foldl max n

/-- The `while !word.is_empty()` loop of `Tokenizer::tokenize`, fueled; fuel
`w.length` suffices because each step consumes at least one symbol. -/
def tokenizeFuel (trie : List (List C)) : Nat → List C → List (List C)
  | 0, _ => []
  | fuel+1, w =>
    if w.isEmpty then []
    else
      let n := nextLen trie w
      w.take n :: tokenizeFuel trie fuel (w.drop n)

/-- `Tokenizer::tokenize`: spans are modeled by their symbol content. -/
def Tokenizer.tokenize (t : Tokenizer C) (w : List C) : List (List C) :=
  tokenizeFuel t.trie w.length w

/-- Analysis device (not part of the source): the final position of the
span-start walk from `p`, stopping at a dead marker. -/
def walkEnd (w : List (VocabChar C)) : Nat → Nat → Nat
  | 0, p => p
  | fuel+1, p =>
    if w.length ≤ p then p
    else if headAt w p = 0 then p
    else walkEnd w fuel (p + headAt w p)

/-- Position `p` walks exactly to the end of the word. -/
def Reaches (w : List (VocabChar C)) (p : Nat) : Prop :=
  walkEnd w (w.length + 1) p = w.length

instance (w : List (VocabChar C)) (p : Nat) : Decidable (Reaches w p) := by
  unfold Reaches
  infer_instance

/-- The spans of a word read off the markers: start at 0, advance by
`token_head` (the claim C6 description of the segmentation). -/
def spansFrom (w : List (VocabChar C)) : Nat → Nat → List (List C)
  | 0, _ => []
  | fuel+1, p =>
    if w.length ≤ p then []
    else sliceTok w p (headAt w p) :: spansFrom w fuel (p + headAt w p)

/-- The span list of a word. -/
def spansOf (w : List (VocabChar C)) : List (List C) :=
  spansFrom w (w.length + 1) 0

/-- The states reachable through the public API from corpus `ws`, counting
successful merge rounds; each round may use any iteration order of the pair
map (any permutation of the canonical grouping). -/
inductive Evolves (ws : List (List C)) : Nat → Vocab C → Prop
  | base : Evolves ws 0 (Vocab.new ws)
  | stepOk {n : Nat} {v : Vocab C} {entries : List (List C × List (Nat × Nat))}
      {min_freq : Nat} {v' : Vocab C} :
      Evolves ws n v →
      entries.Perm (groupPairs (allPairs v.words)) →
      v.mergeWith entries min_freq = (Except.ok (), v') →
      Evolves ws (n + 1) v'
  | stepErr {n : Nat} {v : Vocab C} {entries : List (List C × List (Nat × Nat))}
      {min_freq : Nat} {v' : Vocab C} :
      Evolves ws n v →
      entries.Perm (groupPairs (allPairs v.words)) →
      v.mergeWith entries min_freq = (Except.error (), v') →
      Evolves ws n v'

/-- Invariant of all states reachable through the API: words are non-empty
and their markers partition them (the walk from 0 is exact), and every token
has length at least 2. -/
def Good (v : Vocab C) : Prop :=
  (∀ w ∈ v.words, w ≠ [] ∧ Reaches w 0) ∧ ∀ t ∈ v.tokens, 2 ≤ t.length

/-- The maximal aggregate adjacent-pair frequency of the current corpus
segmentation (0 when there is no pair at all). -/
def maxPairFreq (v : Vocab C) : Nat :=
  ((groupPairs (allPairs v.words)).map (fun e => e.2.length)).foldr max 0

/-- One caller-side operation on a training session: a merge round (with the
iteration order its hash map happened to produce) or taking a snapshot. -/
inductive TrainOp (C : Type) where
  | merge (entries : List (List C × List (Nat × Nat))) (min_freq : Nat)
  | snapshot

/-- A training session: the owned vocabulary and every tokenizer snapshot the
caller has received so far.  Models the `&mut self` call sequence of the Rust
API: `build` hands out an independent value, so merges touch only `vocab`. -/
structure Session (C : Type) where
  vocab : Vocab C
  snaps : List (Tokenizer C)

def stepOp (s : Session C) : TrainOp C → Session C
  | TrainOp.merge entries mf => { s with vocab := (s.vocab.mergeWith entries mf).2 }
  | TrainOp.snapshot => { s with snaps := s.snaps ++ [s.vocab.build] }

def runOps (s : Session C) (ops : List (TrainOp C)) : Session C :=
  ops.foldl stepOp s

instance : DecidableEq (Except Unit Unit) := fun a b =>
  match a, b with
  | Except.error (), Except.error () => isTrue rfl
  | Except.ok (), Except.ok () => isTrue rfl
  | Except.error (), Except.ok () => isFalse (fun h => Except.noConfusion h)
  | Except.ok (), Except.error () => isFalse (fun h => Except.noConfusion h)

/-- A segmentation state exhibiting that the pair map is keyed by concatenated
content, not by the (left token, right token) pair: both words read `A A B`
(symbols 0 0 1), the first segmented as the spans `[A][AB]`, the second as
`[AA][B]`.  Both adjacent pairs concatenate to `A A B`, so the scan files them
under one key although their left tokens differ. -/
def c8State : Vocab Nat :=
  { words := [[⟨0, 1⟩, ⟨0, 2⟩, ⟨1, 1⟩], [⟨0, 2⟩, ⟨0, 1⟩, ⟨1, 1⟩]]
    tokens := [[0, 1], [0, 0]] }

/-! ### Basic facts about the span-start walk -/

theorem walkEnd_of_le {w : List (VocabChar C)} {p : Nat} (h : w.length ≤ p) :
    ∀ f, walkEnd w f p = p := by
  intro f
  cases f with
  | zero => rfl
  | succ f => simp [walkEnd, h]

theorem Reaches.le {w : List (VocabChar C)} {p : Nat} (h : Reaches w p) :
    p ≤ w.length := by
  by_contra hlt
  push_neg at hlt
  unfold Reaches at h
  rw [walkEnd_of_le (Nat.le_of_lt hlt)] at h
  omega

theorem Reaches_length (w : List (VocabChar C)) : Reaches w w.length := by
  unfold Reaches
  rw [walkEnd_of_le (Nat.le_refl _)]

theorem walkEnd_succ_of_eq {w : List (VocabChar C)} :
    ∀ {f p}, walkEnd w f p = w.length → walkEnd w (f + 1) p = w.length := by
  intro f
  induction f with
  | zero =>
    intro p h
    simp only [walkEnd] at h
    subst h
    simp [walkEnd]
  | succ f ih =>
    intro p h
    by_cases hle : w.length ≤ p
    · simpa [walkEnd, hle] using h
    · by_cases h0 : headAt w p = 0
      · simp only [walkEnd, if_neg hle, if_pos h0] at h ⊢
        omega
      · simp only [walkEnd, if_neg hle, if_neg h0] at h ⊢
        exact ih h

theorem walkEnd_mono {w : List (VocabChar C)} {f g p : Nat} (hfg : f ≤ g)
    (h : walkEnd w f p = w.length) : walkEnd w g p = w.length := by
  induction g with
  | zero =>
    have : f = 0 := Nat.le_zero.mp hfg
    subst this
    exact h
  | succ g ih =>
    rcases Nat.lt_or_ge f (g + 1) with hlt | hge
    · exact walkEnd_succ_of_eq (ih (Nat.lt_succ_iff.mp hlt))
    · have : f = g + 1 := Nat.le_antisymm hfg hge
      subst this
      exact h

theorem walkEnd_enough {w : List (VocabChar C)} :
    ∀ {f p}, walkEnd w f p = w.length →
      walkEnd w (w.length + 1 - p) p = w.length := by
  intro f
  induction f with
  | zero =>
    intro p h
    simp only [walkEnd] at h
    subst h
    rw [walkEnd_of_le (Nat.le_refl _)]
  | succ f ih =>
    intro p h
    by_cases hle : w.length ≤ p
    · rw [walkEnd_of_le hle] at h ⊢
      exact h
    · by_cases h0 : headAt w p = 0
      · simp only [walkEnd, if_neg hle, if_pos h0] at h
        omega
      · simp only [walkEnd, if_neg hle, if_neg h0] at h
        have hnext := ih h
        have hm : walkEnd w (w.length - p) (p + headAt w p) = w.length := by
          refine walkEnd_mono ?_ hnext
          omega
        have hrw : w.length + 1 - p = (w.length - p) + 1 := by omega
        rw [hrw]
        simp only [walkEnd, if_neg hle, if_neg h0]
        exact hm

theorem Reaches_of_fuel {w : List (VocabChar C)} {f p : Nat}
    (h : walkEnd w f p = w.length) : Reaches w p := by
  unfold Reaches
  exact walkEnd_mono (by omega) (walkEnd_enough h)

theorem Reaches.step {w : List (VocabChar C)} {p : Nat} (h : Reaches w p)
    (hp : p < w.length) :
    1 ≤ headAt w p ∧ p + headAt w p ≤ w.length ∧ Reaches w (p + headAt w p) := by
  unfold Reaches at h
  have hle : ¬ w.length ≤ p := Nat.not_le.mpr hp
  by_cases h0 : headAt w p = 0
  · simp only [walkEnd, if_neg hle, if_pos h0] at h
    omega
  · simp only [walkEnd, if_neg hle, if_neg h0] at h
    have hR : Reaches w (p + headAt w p) := Reaches_of_fuel h
    exact ⟨Nat.one_le_iff_ne_zero.mpr h0, hR.le, hR⟩

/-- A word whose markers are all 1 (the state `Vocab::new` creates) walks
exactly. -/
theorem reaches_zero_of_all_one {w : List (VocabChar C)}
    (hone : ∀ q, headAt w q = 1) : Reaches w 0 := by
  have main : ∀ f p, w.length ≤ p + f → p ≤ w.length → walkEnd w f p = w.length := by
    intro f
    induction f with
    | zero =>
      intro p h1 h2
      simp only [walkEnd]
      omega
    | succ f ih =>
      intro p h1 h2
      by_cases hle : w.length ≤ p
      · rw [walkEnd_of_le hle]
        omega
      · have h0 : ¬ headAt w p = 0 := by rw [hone p]; omega
        simp only [walkEnd, if_neg hle, if_neg h0, hone p]
        exact ih (p + 1) (by omega) (by omega)
  exact main (w.length + 1) 0 (by omega) (by omega)

/-! ### Facts about `setHead` and `commitOccs` -/

theorem length_setHead (w : List (VocabChar C)) (p L : Nat) :
    (setHead w p L).length = w.length := by
  unfold setHead
  cases h : w[p]? with
  | none => rfl
  | some x => simp [List.length_set]

theorem setHead_of_le {w : List (VocabChar C)} {p : Nat} (h : w.length ≤ p) (L : Nat) :
    setHead w p L = w := by
  unfold setHead
  rw [List.getElem?_eq_none h]

theorem charsOf_setHead (w : List (VocabChar C)) (p L : Nat) :
    charsOf (setHead w p L) = charsOf w := by
  unfold setHead
  cases h : w[p]? with
  | none => rfl
  | some x =>
    apply List.ext_getElem?
    intro n
    unfold charsOf
    rw [List.getElem?_map, List.getElem?_map, List.getElem?_set]
    by_cases hpn : p = n
    · subst hpn
      have hlt : p < w.length := by
        by_contra hc
        rw [List.getElem?_eq_none (Nat.le_of_not_lt hc)] at h
        exact Option.noConfusion h
      simp only [if_pos rfl, if_pos hlt, h]
      rfl
    · simp [hpn]

theorem headAt_setHead_same {w : List (VocabChar C)} {p : Nat} (hp : p < w.length)
    (L : Nat) : headAt (setHead w p L) p = L := by
  have h : w[p]? = some w[p] := List.getElem?_eq_getElem hp
  unfold setHead
  rw [h]
  unfold headAt
  rw [List.getElem?_set]
  simp [hp]

theorem headAt_setHead_ne {w : List (VocabChar C)} {p q : Nat} (h : p ≠ q) (L : Nat) :
    headAt (setHead w p L) q = headAt w q := by
  unfold setHead
  cases hx : w[p]? with
  | none => rfl
  | some x =>
    unfold headAt
    rw [List.getElem?_set, if_neg h]

theorem length_commitOccs (L : Nat) :
    ∀ (occs : List (Nat × Nat)) (ws : List (List (VocabChar C))),
      (commitOccs ws L occs).length = ws.length := by
  intro occs
  induction occs with
  | nil => intro ws; rfl
  | cons ip rest ih =>
    intro ws
    show (commitOccs (ws.set ip.1 (setHead (ws.getD ip.1 []) ip.2 L)) L rest).length = _
    rw [ih, List.length_set]

theorem getD_commitOccs_chars (L : Nat) :
    ∀ (occs : List (Nat × Nat)) (ws : List (List (VocabChar C))) (i : Nat),
      charsOf ((commitOccs ws L occs).getD i []) = charsOf (ws.getD i []) := by
  intro occs
  induction occs with
  | nil => intro ws i; rfl
  | cons ip rest ih =>
    intro ws i
    show charsOf ((commitOccs (ws.set ip.1 (setHead (ws.getD ip.1 []) ip.2 L)) L rest).getD i []) = _
    rw [ih]
    by_cases hi : ip.1 = i
    · subst hi
      by_cases hlen : ip.1 < ws.length
      · rw [List.getD_eq_getElem?_getD, List.getElem?_set, if_pos rfl, if_pos hlen,
          Option.getD_some, charsOf_setHead]
      · rw [List.set_eq_of_length_le (Nat.le_of_not_lt hlen)]
    · rw [List.getD_eq_getElem?_getD, List.getElem?_set, if_neg hi,
        ← List.getD_eq_getElem?_getD]

theorem length_getD_commitOccs (L : Nat) (occs : List (Nat × Nat))
    (ws : List (List (VocabChar C))) (i : Nat) :
    ((commitOccs ws L occs).getD i []).length = (ws.getD i []).length := by
  have h := getD_commitOccs_chars L occs ws i
  have h1 : (charsOf ((commitOccs ws L occs).getD i [])).length
      = ((commitOccs ws L occs).getD i []).length := List.length_map _ _
  have h2 : (charsOf (ws.getD i [])).length = (ws.getD i []).length :=
    List.length_map _ _
  rw [← h1, ← h2, h]

theorem headAt_commitOccs (L : Nat) :
    ∀ (occs : List (Nat × Nat)) (ws : List (List (VocabChar C))) (i q : Nat),
      headAt ((commitOccs ws L occs).getD i []) q =
        if (i, q) ∈ occs ∧ q < (ws.getD i []).length then L
        else headAt (ws.getD i []) q := by
  intro occs
  induction occs with
  | nil =>
    intro ws i q
    simp [commitOccs]
  | cons ip rest ih =>
    intro ws i q
    show headAt ((commitOccs (ws.set ip.1 (setHead (ws.getD ip.1 []) ip.2 L)) L rest).getD i []) q = _
    rw [ih]
    by_cases hi : ip.1 = i
    · subst hi
      by_cases hws : ip.1 < ws.length
      · have hset : (ws.set ip.1 (setHead (ws.getD ip.1 []) ip.2 L)).getD ip.1 []
            = setHead (ws.getD ip.1 []) ip.2 L := by
          rw [List.getD_eq_getElem?_getD, List.getElem?_set, if_pos rfl, if_pos hws,
            Option.getD_some]
        rw [hset, length_setHead]
        by_cases hq : ip.2 = q
        · subst hq
          by_cases hql : ip.2 < (ws.getD ip.1 []).length
          · by_cases hmem : (ip.1, ip.2) ∈ rest
            · rw [if_pos ⟨hmem, hql⟩, if_pos ⟨List.mem_cons_self _ _, hql⟩]
            · rw [if_neg (fun hc => hmem hc.1), headAt_setHead_same hql,
                if_pos ⟨List.mem_cons_self _ _, hql⟩]
          · rw [setHead_of_le (Nat.le_of_not_lt hql),
              if_neg (fun hc => hql hc.2), if_neg (fun hc => hql hc.2)]
        · rw [headAt_setHead_ne hq]
          by_cases hr : (ip.1, q) ∈ rest ∧ q < (ws.getD ip.1 []).length
          · rw [if_pos hr, if_pos ⟨List.mem_cons_of_mem _ hr.1, hr.2⟩]
          · rw [if_neg hr, if_neg (fun hc => by
              rcases List.mem_cons.mp hc.1 with heq | hmem2
              · exact hq (by rw [← heq])
              · exact hr ⟨hmem2, hc.2⟩)]
      · rw [List.set_eq_of_length_le (Nat.le_of_not_lt hws)]
        have hnil : ws.getD ip.1 [] = [] := by
          rw [List.getD_eq_getElem?_getD, List.getElem?_eq_none (Nat.le_of_not_lt hws)]
          rfl
        rw [hnil]
        simp only [List.length_nil]
        rw [if_neg (fun hc => Nat.not_lt_zero q hc.2),
          if_neg (fun hc => Nat.not_lt_zero q hc.2)]
    · have hset : (ws.set ip.1 (setHead (ws.getD ip.1 []) ip.2 L)).getD i []
          = ws.getD i [] := by
        rw [List.getD_eq_getElem?_getD, List.getElem?_set, if_neg hi,
          ← List.getD_eq_getElem?_getD]
      rw [hset]
      by_cases hr : (i, q) ∈ rest ∧ q < (ws.getD i []).length
      · rw [if_pos hr, if_pos ⟨List.mem_cons_of_mem _ hr.1, hr.2⟩]
      · rw [if_neg hr, if_neg (by
          intro hc
          rcases hc with ⟨hmem, hql⟩
          rcases List.mem_cons.mp hmem with heq | hmem2
          · cases heq
            exact hi rfl
          · exact hr ⟨hmem2, hql⟩)]

/-! ### Characterisation of the scan -/

theorem length_sliceTok {w : List (VocabChar C)} {p n : Nat}
    (h : p + n ≤ w.length) : (sliceTok w p n).length = n := by
  unfold sliceTok
  rw [List.length_map, List.length_take, List.length_drop]
  omega

/-- Everything `scanPairs` records, in a word whose walk is exact: each
occurrence sits at a walk position, its key is the slice covering the two
adjacent spans, and both spans are in range and non-empty. -/
theorem scanPairs_facts {w : List (VocabChar C)} :
    ∀ {fuel q k p}, Reaches w q → (k, p) ∈ scanPairs w fuel q →
      Reaches w p ∧ p < w.length ∧ p + headAt w p < w.length ∧
      1 ≤ headAt w p ∧ 1 ≤ headAt w (p + headAt w p) ∧
      p + headAt w p + headAt w (p + headAt w p) ≤ w.length ∧
      k = sliceTok w p (headAt w p + headAt w (p + headAt w p)) ∧
      k.length = headAt w p + headAt w (p + headAt w p) := by
  intro fuel
  induction fuel with
  | zero => intro q k p _ hmem; exact absurd hmem (List.not_mem_nil _)
  | succ fuel ih =>
    intro q k p hq hmem
    by_cases hb : w.length ≤ q + headAt w q
    · simp only [scanPairs, if_pos hb] at hmem
      exact absurd hmem (List.not_mem_nil _)
    · simp only [scanPairs, if_neg hb, List.mem_cons] at hmem
      have hqlt : q < w.length := by
        have : q ≤ q + headAt w q := Nat.le_add_right _ _
        omega
      obtain ⟨ha1, hale, haR⟩ := hq.step hqlt
      rcases hmem with hhd | htl
      · have hpk : p = q ∧ k = sliceTok w q (headAt w q + headAt w (q + headAt w q)) := by
          have h1 := congrArg Prod.snd hhd
          have h2 := congrArg Prod.fst hhd
          exact ⟨h1, h2⟩
        obtain ⟨hp, hk⟩ := hpk
        subst hp
        have hblt : p + headAt w p < w.length := Nat.lt_of_not_le hb
        obtain ⟨hb1, hble, hbR⟩ := haR.step hblt
        refine ⟨hq, hqlt, hblt, ha1, hb1, hble, hk, ?_⟩
        rw [hk]
        exact length_sliceTok (by omega)
      · exact ih haR htl

/-- Membership in the corpus-wide occurrence list. -/
theorem mem_allPairsFrom {k : List C} {i p : Nat} :
    ∀ {i₀ : Nat} {words : List (List (VocabChar C))},
      (k, i, p) ∈ allPairsFrom i₀ words ↔
        ∃ j, j < words.length ∧ i = i₀ + j ∧
          (k, p) ∈ scanPairs (words.getD j []) ((words.getD j []).length + 1) 0 := by
  intro i₀ words
  induction words generalizing i₀ with
  | nil =>
    simp [allPairsFrom]
  | cons w rest ih =>
    simp only [allPairsFrom, List.mem_append, List.mem_map, ih]
    constructor
    · rintro (⟨kp, hkp, heq⟩ | ⟨j, hj, hi, hmem⟩)
      · refine ⟨0, by simp, ?_, ?_⟩
        · have := congrArg (fun x => x.2.1) heq
          simpa using this.symm
        · have h1 := congrArg Prod.fst heq
          have h2 := congrArg (fun x => x.2.2) heq
          simp only at h1 h2
          subst h1 h2
          simpa using hkp
      · exact ⟨j + 1, by simpa using hj, by omega, by simpa using hmem⟩
    · rintro ⟨j, hj, hi, hmem⟩
      cases j with
      | zero =>
        left
        refine ⟨(k, p), by simpa using hmem, ?_⟩
        simp only at hi ⊢
        rw [hi]
        simp
      | succ j =>
        right
        exact ⟨j, by simpa using hj, by omega, by simpa using hmem⟩

theorem mem_allPairs {k : List C} {i p : Nat} {words : List (List (VocabChar C))} :
    (k, i, p) ∈ allPairs words ↔
      i < words.length ∧
        (k, p) ∈ scanPairs (words.getD i []) ((words.getD i []).length + 1) 0 := by
  unfold allPairs
  rw [mem_allPairsFrom]
  constructor
  · rintro ⟨j, hj, hi, hmem⟩
    have : i = j := by omega
    subst this
    exact ⟨hj, hmem⟩
  · rintro ⟨hi, hmem⟩
    exact ⟨i, hi, by omega, hmem⟩

/-! ### The grouped pair map -/

theorem mem_occsOf {l : List (List C × Nat × Nat)} {k : List C} {i p : Nat} :
    (i, p) ∈ occsOf l k ↔ (k, i, p) ∈ l := by
  unfold occsOf
  rw [List.mem_map]
  constructor
  · rintro ⟨e, hmem, heq⟩
    rw [List.mem_filter] at hmem
    have hk : e.1 = k := by simpa using hmem.2
    have : e = (k, i, p) := by
      obtain ⟨e1, e2⟩ := e
      simp only at hk heq
      rw [hk, heq]
    rw [← this]
    exact hmem.1
  · intro hmem
    refine ⟨(k, i, p), ?_, rfl⟩
    rw [List.mem_filter]
    exact ⟨hmem, by simp⟩

theorem mem_groupPairs {l : List (List C × Nat × Nat)}
    {e : List C × List (Nat × Nat)} (h : e ∈ groupPairs l) :
    e.2 = occsOf l e.1 := by
  unfold groupPairs at h
  rw [List.mem_map] at h
  obtain ⟨k, _, heq⟩ := h
  rw [← heq]

theorem groupPairs_occs_ne_nil {l : List (List C × Nat × Nat)}
    {e : List C × List (Nat × Nat)} (h : e ∈ groupPairs l) : e.2 ≠ [] := by
  unfold groupPairs at h
  rw [List.mem_map] at h
  obtain ⟨k, hk, heq⟩ := h
  unfold keysOf at hk
  rw [List.mem_dedup, List.mem_map] at hk
  obtain ⟨x, hx, hxk⟩ := hk
  have hocc : (x.2.1, x.2.2) ∈ occsOf l k := by
    rw [mem_occsOf, ← hxk]
    exact hx
  intro hnil
  rw [← heq] at hnil
  simp only at hnil
  rw [hnil] at hocc
  exact List.not_mem_nil _ hocc

theorem groupPairs_eq_nil {l : List (List C × Nat × Nat)} :
    groupPairs l = [] ↔ l = [] := by
  unfold groupPairs keysOf
  rw [List.map_eq_nil_iff, List.dedup_eq_nil, List.map_eq_nil_iff]

/-! ### Facts about `maxByCount` -/

theorem maxByCount_aux_some {l : List (List C × List (Nat × Nat))} :
    ∀ {a : List C × List (Nat × Nat)},
      ∃ e, l.foldl
          (fun acc e =>
            match acc with
            | none => some e
            | some a => if a.2.length ≤ e.2.length then some e else some a)
          (some a) = some e ∧ (e = a ∨ e ∈ l) ∧ a.2.length ≤ e.2.length ∧
          ∀ x ∈ l, x.2.length ≤ e.2.length := by
  induction l with
  | nil => intro a; exact ⟨a, rfl, Or.inl rfl, Nat.le_refl _, by simp⟩
  | cons y ys ih =>
    intro a
    by_cases hy : a.2.length ≤ y.2.length
    · obtain ⟨e, heq, hmem, hle, hall⟩ := @ih y
      refine ⟨e, ?_, ?_, ?_, ?_⟩
      · simpa [hy] using heq
      · rcases hmem with h | h
        · exact Or.inr (h ▸ List.mem_cons_self _ _)
        · exact Or.inr (List.mem_cons_of_mem _ h)
      · omega
      · intro x hx
        rcases List.mem_cons.mp hx with h | h
        · rw [h]; omega
        · exact hall x h
    · obtain ⟨e, heq, hmem, hle, hall⟩ := @ih a
      refine ⟨e, ?_, ?_, hle, ?_⟩
      · simpa [hy] using heq
      · rcases hmem with h | h
        · exact Or.inl h
        · exact Or.inr (List.mem_cons_of_mem _ h)
      · intro x hx
        rcases List.mem_cons.mp hx with h | h
        · rw [h]; omega
        · exact hall x h

theorem maxByCount_eq_none {l : List (List C × List (Nat × Nat))} :
    maxByCount l = none ↔ l = [] := by
  cases l with
  | nil => simp [maxByCount]
  | cons y ys =>
    simp only [maxByCount, List.foldl_cons]
    obtain ⟨e, heq, _, _, _⟩ := @maxByCount_aux_some C _ ys y
    constructor
    · intro h
      rw [heq] at h
      exact absurd h (by simp)
    · intro h
      exact absurd h (by simp)

theorem maxByCount_spec {l : List (List C × List (Nat × Nat))}
    {e : List C × List (Nat × Nat)} (h : maxByCount l = some e) :
    e ∈ l ∧ ∀ x ∈ l, x.2.length ≤ e.2.length := by
  cases l with
  | nil => exact absurd h (by simp [maxByCount])
  | cons y ys =>
    simp only [maxByCount, List.foldl_cons] at h
    obtain ⟨e', heq, hmem, hle, hall⟩ := @maxByCount_aux_some C _ ys y
    rw [heq] at h
    have he : e' = e := by
      have := Option.some.injEq e' e ▸ h
      simpa using h
    subst he
    constructor
    · rcases hmem with h | h
      · exact h ▸ List.mem_cons_self _ _
      · exact List.mem_cons_of_mem _ h
    · intro x hx
      rcases List.mem_cons.mp hx with h | h
      · rw [h]; omega
      · exact hall x h

/-! ### The key preservation argument: committing a merge keeps the walk exact -/

/-- Any fuel of at least `length + 1 - p` computes the exact walk. -/
theorem Reaches.fuel {w : List (VocabChar C)} {p : Nat} (h : Reaches w p)
    {g : Nat} (hg : w.length + 1 - p ≤ g) : walkEnd w g p = w.length :=
  walkEnd_mono hg (walkEnd_enough h)

/-- If the update relation `Q` only touches walk positions, replacing each
touched marker by the combined length of its two adjacent spans, the updated
word's walk is still exact from every old walk position. -/
theorem walk_preserved {w w' : List (VocabChar C)} {Q : Nat → Prop}
    (hlen : w'.length = w.length)
    (hsame : ∀ q, ¬ Q q → headAt w' q = headAt w q)
    (hupd : ∀ q, Q q → Reaches w q ∧ q < w.length ∧
      q + headAt w q < w.length ∧
      headAt w' q = headAt w q + headAt w (q + headAt w q)) :
    ∀ p, Reaches w p → Reaches w' p := by
  have main : ∀ m p, w.length - p = m → Reaches w p → Reaches w' p := by
    intro m
    induction m using Nat.strong_induction_on with
    | _ m ih =>
      intro p hm hp
      by_cases hple : w.length ≤ p
      · have hpw : p = w.length := Nat.le_antisymm hp.le hple
        subst hpw
        unfold Reaches
        rw [walkEnd_of_le (Nat.le_of_eq hlen), hlen]
      · have hplt : p < w.length := Nat.lt_of_not_le hple
        obtain ⟨h1, hle, hR⟩ := hp.step hplt
        have key : ∀ r, headAt w' p = r - p → p < r → Reaches w r → Reaches w' p := by
          intro r hr hpr hrR
          have hrR' : Reaches w' r := by
            refine ih (w.length - r) (by omega) r rfl hrR
          unfold Reaches
          have hstep : walkEnd w' (w'.length + 1) p
              = walkEnd w' w'.length (p + headAt w' p) := by
            simp only [walkEnd, if_neg (by omega : ¬ w'.length ≤ p)]
            rw [if_neg (by omega)]
          rw [hstep]
          have hpr2 : p + headAt w' p = r := by omega
          rw [hpr2]
          exact hrR'.fuel (by omega)
        by_cases hQ : Q p
        · obtain ⟨_, _, hmlt, hh'⟩ := hupd p hQ
          obtain ⟨hm1, hmle, hmR⟩ := hR.step hmlt
          exact key (p + headAt w p + headAt w (p + headAt w p))
            (by omega) (by omega) hmR
        · exact key (p + headAt w p) (by rw [hsame p hQ]; omega) (by omega) hR
  intro p
  exact main (w.length - p) p rfl

/-! ### The reachable-state invariant -/

theorem headAt_map_mk (w₀ : List C) (q : Nat) :
    headAt (w₀.map (fun c => (⟨c, 1⟩ : VocabChar C))) q = 1 := by
  unfold headAt
  rw [List.getElem?_map]
  cases w₀[q]? <;> rfl

theorem good_new (ws : List (List C)) : Good (Vocab.new ws) := by
  constructor
  · intro w hw
    unfold Vocab.new at hw
    simp only at hw
    rw [List.mem_filter] at hw
    obtain ⟨hmem, hne⟩ := hw
    rw [List.mem_map] at hmem
    obtain ⟨w₀, _, hw₀⟩ := hmem
    constructor
    · intro hnil
      rw [hnil] at hne
      simp at hne
    · subst hw₀
      exact reaches_zero_of_all_one (headAt_map_mk w₀)
  · intro t ht
    exact absurd ht (List.not_mem_nil _)

theorem getD_list_mem {α : Type} {l : List (List α)} {i : Nat} (h : i < l.length) :
    l.getD i [] ∈ l := by
  rw [List.getD_eq_getElem?_getD, List.getElem?_eq_getElem h, Option.getD_some]
  exact List.getElem_mem h

theorem mergeWith_error {v v' : Vocab C} {entries : List (List C × List (Nat × Nat))}
    {mf : Nat} {e : Unit}
    (h : v.mergeWith entries mf = (Except.error e, v')) : v' = v := by
  unfold Vocab.mergeWith at h
  cases hcase : maxByCount (entries.filter (fun e => mf ≤ e.2.length)) with
  | none =>
    rw [hcase] at h
    exact (congrArg Prod.snd h).symm
  | some best =>
    rw [hcase] at h
    exact absurd (congrArg Prod.fst h) (by simp)

theorem mergeWith_ok {v v' : Vocab C} {entries : List (List C × List (Nat × Nat))}
    {mf : Nat}
    (h : v.mergeWith entries mf = (Except.ok (), v')) :
    ∃ best, maxByCount (entries.filter (fun e => mf ≤ e.2.length)) = some best ∧
      v' = { words := commitOccs v.words best.1.length best.2
             tokens := v.tokens.insert best.1 } := by
  unfold Vocab.mergeWith at h
  cases hcase : maxByCount (entries.filter (fun e => mf ≤ e.2.length)) with
  | none =>
    rw [hcase] at h
    exact absurd (congrArg Prod.fst h) (by simp)
  | some best =>
    rw [hcase] at h
    exact ⟨best, rfl, (congrArg Prod.snd h).symm⟩

/-- Everything a successful merge round does to a good state. -/
theorem merge_step_facts {v v' : Vocab C}
    {entries : List (List C × List (Nat × Nat))} {mf : Nat}
    (hg : Good v)
    (hperm : entries.Perm (groupPairs (allPairs v.words)))
    (hok : v.mergeWith entries mf = (Except.ok (), v')) :
    Good v' ∧ v'.words.length = v.words.length ∧
    (∀ i, charsOf (v'.words.getD i []) = charsOf (v.words.getD i [])) ∧
    ∃ k, 2 ≤ k.length ∧ v'.tokens = v.tokens.insert k := by
  obtain ⟨best, hbest, hv'⟩ := mergeWith_ok hok
  obtain ⟨hbmem, _⟩ := maxByCount_spec hbest
  have hbent : best ∈ entries := (List.mem_filter.mp hbmem).1
  have hbgp : best ∈ groupPairs (allPairs v.words) := hperm.mem_iff.mp hbent
  have hboccs : best.2 = occsOf (allPairs v.words) best.1 := mem_groupPairs hbgp
  have hbne : best.2 ≠ [] := groupPairs_occs_ne_nil hbgp
  -- facts about each committed occurrence
  have occfacts : ∀ ip ∈ best.2, ip.1 < v.words.length ∧
      (Reaches (v.words.getD ip.1 []) ip.2 ∧
        ip.2 < (v.words.getD ip.1 []).length ∧
        ip.2 + headAt (v.words.getD ip.1 []) ip.2 < (v.words.getD ip.1 []).length ∧
        best.1.length = headAt (v.words.getD ip.1 []) ip.2 +
          headAt (v.words.getD ip.1 [])
            (ip.2 + headAt (v.words.getD ip.1 []) ip.2) ∧
        2 ≤ best.1.length) := by
    intro ip hip
    rw [hboccs] at hip
    have hall : (best.1, ip.1, ip.2) ∈ allPairs v.words := by
      rw [← mem_occsOf]
      exact hip
    rw [mem_allPairs] at hall
    obtain ⟨hilt, hscan⟩ := hall
    have hw : v.words.getD ip.1 [] ∈ v.words := getD_list_mem hilt
    have hR0 : Reaches (v.words.getD ip.1 []) 0 := (hg.1 _ hw).2
    obtain ⟨hR, hplt, hblt, h1, h2, _, _, hklen⟩ := scanPairs_facts hR0 hscan
    exact ⟨hilt, hR, hplt, hblt, hklen, by omega⟩
  have hk2 : 2 ≤ best.1.length := by
    cases hb2 : best.2 with
    | nil => exact absurd hb2 hbne
    | cons ip rest => exact (occfacts ip (hb2 ▸ List.mem_cons_self _ _)).2.2.2.2.2
  refine ⟨⟨?_, ?_⟩, ?_, ?_, best.1, hk2, by rw [hv']⟩
  · -- words of v' are non-empty and walk exactly
    intro w' hw'
    rw [List.mem_iff_getElem] at hw'
    obtain ⟨j, hj, hw'j⟩ := hw'
    have hjv : j < v.words.length := by
      rw [hv'] at hj
      simpa [length_commitOccs] using hj
    have hgetD : v'.words.getD j [] = w' := by
      rw [List.getD_eq_getElem?_getD, List.getElem?_eq_getElem hj, Option.getD_some, hw'j]
    have hwj : v.words.getD j [] ∈ v.words := getD_list_mem hjv
    obtain ⟨hwne, hwR⟩ := hg.1 _ hwj
    have hlen : ((commitOccs v.words best.1.length best.2).getD j []).length
        = (v.words.getD j []).length := length_getD_commitOccs _ _ _ _
    have hhead := fun q => headAt_commitOccs best.1.length best.2 v.words j q
    have hpres : Reaches ((commitOccs v.words best.1.length best.2).getD j []) 0 := by
      refine walk_preserved (Q := fun q => (j, q) ∈ best.2 ∧ q < (v.words.getD j []).length)
        hlen ?_ ?_ 0 hwR
      · intro q hq
        rw [hhead q, if_neg hq]
      · intro q hq
        obtain ⟨_, hR, hplt, hblt, hklen, _⟩ := occfacts (j, q) hq.1
        refine ⟨hR, hplt, hblt, ?_⟩
        rw [hhead q, if_pos hq, hklen]
    constructor
    · intro hnil
      rw [← hgetD, hv'] at hnil
      simp only at hnil
      rw [hnil] at hlen
      simp only [List.length_nil] at hlen
      exact hwne (List.eq_nil_of_length_eq_zero hlen.symm)
    · rw [← hgetD, hv']
      exact hpres
  · -- tokens of v' have length at least 2
    intro t ht
    rw [hv'] at ht
    simp only at ht
    rw [List.mem_insert_iff] at ht
    rcases ht with h | h
    · rw [h]; exact hk2
    · exact hg.2 t h
  · rw [hv']
    simpa using length_commitOccs best.1.length best.2 v.words
  · intro i
    rw [hv']
    simpa using getD_commitOccs_chars best.1.length best.2 v.words i

theorem map_charsOf_eq {ws1 ws2 : List (List (VocabChar C))}
    (hlen : ws1.length = ws2.length)
    (h : ∀ i, charsOf (ws1.getD i []) = charsOf (ws2.getD i [])) :
    ws1.map charsOf = ws2.map charsOf := by
  apply List.ext_getElem?
  intro i
  rw [List.getElem?_map, List.getElem?_map]
  by_cases hlt : i < ws1.length
  · have hi := h i
    rw [List.getD_eq_getElem?_getD, List.getElem?_eq_getElem hlt, Option.getD_some,
      List.getD_eq_getElem?_getD, List.getElem?_eq_getElem (hlen ▸ hlt),
      Option.getD_some] at hi
    rw [List.getElem?_eq_getElem hlt, List.getElem?_eq_getElem (hlen ▸ hlt)]
    exact congrArg some hi
  · rw [List.getElem?_eq_none (Nat.le_of_not_lt hlt),
      List.getElem?_eq_none (by omega : ws2.length ≤ i)]

theorem new_words_chars (ws : List (List C)) :
    (Vocab.new ws).words.map charsOf = ws.filter (fun w => !w.isEmpty) := by
  unfold Vocab.new
  simp only
  rw [List.filter_map]
  rw [List.map_map]
  have hcomp : (charsOf ∘ fun w : List C => w.map fun c => (⟨c, 1⟩ : VocabChar C))
      = id := by
    funext w
    simp only [Function.comp_apply, charsOf, List.map_map, id]
    have : (VocabChar.char ∘ fun c : C => (⟨c, 1⟩ : VocabChar C)) = id := by
      funext c; rfl
    rw [this, List.map_id]
  rw [hcomp, List.map_id]
  congr 1
  funext w
  simp only [Function.comp_apply]
  cases w <;> rfl

/-- The invariants carried along any reachable trace: the state is good, the
word contents are exactly the non-empty ingested words, and at most one token
exists per successful round. -/
theorem evolves_facts {ws : List (List C)} {n : Nat} {v : Vocab C}
    (h : Evolves ws n v) :
    Good v ∧ v.words.map charsOf = ws.filter (fun w => !w.isEmpty) ∧
      v.tokens.length ≤ n := by
  induction h with
  | base =>
    exact ⟨good_new ws, new_words_chars ws, Nat.le_refl _⟩
  | @stepOk m v₀ entries mf v' hev hperm hok ih =>
    obtain ⟨hg, hchars, htok⟩ := ih
    obtain ⟨hg', hlen', hchars', k, hk2, htok'⟩ := merge_step_facts hg hperm hok
    refine ⟨hg', ?_, ?_⟩
    · rw [map_charsOf_eq hlen' hchars', hchars]
    · rw [htok']
      by_cases hmem : k ∈ v₀.tokens
      · rw [List.length_insert_of_mem hmem]
        omega
      · rw [List.length_insert_of_not_mem hmem]
        omega
  | @stepErr m v₀ entries mf v' hev hperm herr ih =>
    rw [mergeWith_error herr]
    exact ih

/-! ### The spans read off the markers tile the word exactly -/

theorem sliceTok_eq_take_drop (w : List (VocabChar C)) (p n : Nat) :
    sliceTok w p n = ((charsOf w).drop p).take n := by
  unfold sliceTok charsOf
  rw [List.map_take, List.map_drop]

theorem length_charsOf (w : List (VocabChar C)) : (charsOf w).length = w.length :=
  List.length_map _ _

theorem spansFrom_join {w : List (VocabChar C)} :
    ∀ {f p}, walkEnd w f p = w.length →
      (spansFrom w f p).flatten = (charsOf w).drop p ∧
        ∀ s ∈ spansFrom w f p, s ≠ [] := by
  intro f
  induction f with
  | zero =>
    intro p h
    simp only [walkEnd] at h
    subst h
    refine ⟨?_, ?_⟩
    · rw [List.drop_eq_nil_of_le (le_of_eq (length_charsOf w))]
      rfl
    · intro s hs
      exact absurd hs (List.not_mem_nil _)
  | succ f ih =>
    intro p h
    by_cases hle : w.length ≤ p
    · rw [walkEnd_of_le hle] at h
      have hsp : spansFrom w (f + 1) p = [] := by
        simp only [spansFrom, if_pos hle]
      refine ⟨?_, ?_⟩
      · rw [hsp, List.drop_eq_nil_of_le (by rw [length_charsOf]; omega)]
        rfl
      · rw [hsp]
        intro s hs
        exact absurd hs (List.not_mem_nil _)
    · have hplt : p < w.length := Nat.lt_of_not_le hle
      by_cases h0 : headAt w p = 0
      · simp only [walkEnd, if_neg hle, if_pos h0] at h
        omega
      · simp only [walkEnd, if_neg hle, if_neg h0] at h
        obtain ⟨ihj, ihne⟩ := ih h
        simp only [spansFrom, if_neg hle]
        constructor
        · rw [List.flatten_cons, ihj, sliceTok_eq_take_drop]
          have hdd : (charsOf w).drop (p + headAt w p)
              = ((charsOf w).drop p).drop (headAt w p) := by
            rw [List.drop_drop]
          rw [hdd, List.take_append_drop]
        · intro s hs
          rcases List.mem_cons.mp hs with hhd | htl
          · subst hhd
            apply List.ne_nil_of_length_pos
            unfold sliceTok
            rw [List.length_map, List.length_take, List.length_drop]
            omega
          · exact ihne s htl

theorem spansOf_join {w : List (VocabChar C)} (h : Reaches w 0) :
    (spansOf w).flatten = charsOf w ∧ ∀ s ∈ spansOf w, s ≠ [] := by
  have := spansFrom_join (w := w) (f := w.length + 1) (p := 0) h
  rwa [List.drop_zero] at this

/-! ### The tokenizer loop -/

theorem le_foldl_max {l : List Nat} : ∀ {a : Nat}, a ≤ l.foldl max a := by
  induction l with
  | nil => intro a; exact Nat.le_refl _
  | cons x xs ih =>
    intro a
    exact Nat.le_trans (Nat.le_max_left a x) ih

theorem mem_le_foldl_max {l : List Nat} :
    ∀ {a x : Nat}, x ∈ l → x ≤ l.foldl max a := by
  induction l with
  | nil => intro a x hx; exact absurd hx (List.not_mem_nil _)
  | cons y ys ih =>
    intro a x hx
    rcases List.mem_cons.mp hx with h | h
    · subst h
      exact Nat.le_trans (Nat.le_max_right a x) le_foldl_max
    · exact ih h

theorem foldl_max_mem {l : List Nat} :
    ∀ {a : Nat}, l.foldl max a = a ∨ l.foldl max a ∈ l := by
  induction l with
  | nil => intro a; exact Or.inl rfl
  | cons x xs ih =>
    intro a
    rcases @ih (max a x) with h | h
    · rcases Nat.le_total a x with hax | hxa
      · right
        rw [List.foldl_cons, h, Nat.max_eq_right hax]
        exact List.mem_cons_self _ _
      · left
        rw [List.foldl_cons, h, Nat.max_eq_left hxa]
    · right
      rw [List.foldl_cons]
      exact List.mem_cons_of_mem _ h

theorem mem_matchLens {trie : List (List C)} {w : List C} {m : Nat} :
    m ∈ matchLens trie w ↔ ∃ t ∈ trie, t <+: w ∧ t.length = m := by
  unfold matchLens
  rw [List.mem_map]
  constructor
  · rintro ⟨t, ht, hlen⟩
    rw [List.mem_filter] at ht
    exact ⟨t, ht.1, List.isPrefixOf_iff_prefix.mp ht.2, hlen⟩
  · rintro ⟨t, ht, hpre, hlen⟩
    refine ⟨t, ?_, hlen⟩
    rw [List.mem_filter]
    exact ⟨ht, List.isPrefixOf_iff_prefix.mpr hpre⟩

theorem nextLen_of_nil {trie : List (List C)} {w : List C}
    (h : matchLens trie w = []) : nextLen trie w = 1 := by
  unfold nextLen
  rw [h]

theorem nextLen_spec {trie : List (List C)} {w : List C}
    (h : matchLens trie w ≠ []) :
    nextLen trie w ∈ matchLens trie w ∧
      ∀ m ∈ matchLens trie w, m ≤ nextLen trie w := by
  cases hm : matchLens trie w with
  | nil => exact absurd hm h
  | cons n ns =>
    have hval : nextLen trie w = ns.foldl max n := by
      unfold nextLen
      rw [hm]
    rw [hval]
    constructor
    · rcases @foldl_max_mem ns n with heq | hmem
      · rw [heq]
        exact List.mem_cons_self _ _
      · exact List.mem_cons_of_mem _ hmem
    · intro m hmmem
      rcases List.mem_cons.mp hmmem with heq | hmem
      · subst heq
        exact le_foldl_max
      · exact mem_le_foldl_max hmem

theorem nextLen_pos {trie : List (List C)} {w : List C}
    (hne : ∀ t ∈ trie, t ≠ []) : 1 ≤ nextLen trie w := by
  by_cases h : matchLens trie w = []
  · rw [nextLen_of_nil h]
  · obtain ⟨hmem, _⟩ := nextLen_spec h
    obtain ⟨t, ht, _, hlen⟩ := mem_matchLens.mp hmem
    have : t ≠ [] := hne t ht
    have : 0 < t.length := List.length_pos.mpr this
    omega

theorem tokenizeFuel_join {trie : List (List C)} (hne : ∀ t ∈ trie, t ≠ []) :
    ∀ {fuel : Nat} {w : List C}, w.length ≤ fuel →
      (tokenizeFuel trie fuel w).flatten = w := by
  intro fuel
  induction fuel with
  | zero =>
    intro w h
    have : w = [] := List.eq_nil_of_length_eq_zero (by omega)
    subst this
    rfl
  | succ fuel ih =>
    intro w h
    cases hw : w with
    | nil => rfl
    | cons c cs =>
      rw [← hw]
      have hwne : w.isEmpty = false := by rw [hw]; rfl
      simp only [tokenizeFuel, hwne, Bool.false_eq_true, if_false]
      rw [List.flatten_cons]
      have hn := nextLen_pos (w := w) hne
      have hdrop : (w.drop (nextLen trie w)).length ≤ fuel := by
        rw [List.length_drop]
        have : 1 ≤ w.length := by rw [hw]; simp
        omega
      rw [ih hdrop, List.take_append_drop]

theorem tokenizeFuel_congr {trie : List (List C)} (hne : ∀ t ∈ trie, t ≠ []) :
    ∀ {m : Nat} {w : List C} {f g : Nat}, w.length ≤ m → w.length ≤ f → w.length ≤ g →
      tokenizeFuel trie f w = tokenizeFuel trie g w := by
  intro m
  induction m using Nat.strong_induction_on with
  | _ m ih =>
    intro w f g hm hf hg
    cases hw : w with
    | nil =>
      cases f <;> cases g <;> rfl
    | cons c cs =>
      subst hw
      have h1 : 1 ≤ (c :: cs).length := by simp
      cases f with
      | zero => omega
      | succ f =>
        cases g with
        | zero => omega
        | succ g =>
          have hwne : (c :: cs).isEmpty = false := rfl
          simp only [tokenizeFuel, hwne, Bool.false_eq_true, if_false]
          congr 1
          have hn := nextLen_pos (w := c :: cs) hne
          have hlt : ((c :: cs).drop (nextLen trie (c :: cs))).length < (c :: cs).length := by
            rw [List.length_drop]
            simp only [List.length_cons]
            omega
          simp only [List.length_cons] at hlt hm hf hg
          exact ih ((c :: cs).drop (nextLen trie (c :: cs))).length
            (by omega) rfl.le (by omega) (by omega)

theorem tokenize_step {t : Tokenizer C} {w : List C}
    (hne : ∀ tok ∈ t.trie, tok ≠ []) (hw : w ≠ []) :
    t.tokenize w = w.take (nextLen t.trie w) :: t.tokenize (w.drop (nextLen t.trie w)) := by
  cases hww : w with
  | nil => exact absurd hww hw
  | cons c cs =>
    subst hww
    show tokenizeFuel t.trie (c :: cs).length (c :: cs) = _
    have hwne : (c :: cs).isEmpty = false := rfl
    simp only [List.length_cons, tokenizeFuel, hwne, Bool.false_eq_true, if_false]
    congr 1
    have hn := nextLen_pos (w := c :: cs) hne
    have hb : ((c :: cs).drop (nextLen t.trie (c :: cs))).length ≤ cs.length := by
      rw [List.length_drop]
      simp only [List.length_cons]
      omega
    exact tokenizeFuel_congr hne (m := cs.length) hb hb rfl.le

/-! ### The maximal aggregate pair frequency and the full round specification -/

theorem le_foldr_max_of_mem {l : List Nat} {x : Nat} (h : x ∈ l) :
    x ≤ l.foldr max 0 := by
  induction l with
  | nil => exact absurd h (List.not_mem_nil _)
  | cons y ys ih =>
    rcases List.mem_cons.mp h with heq | hmem
    · subst heq
      exact Nat.le_max_left _ _
    · exact Nat.le_trans (ih hmem) (Nat.le_max_right _ _)

theorem foldr_max_attained {l : List Nat} (h : l ≠ []) : l.foldr max 0 ∈ l := by
  induction l with
  | nil => exact absurd rfl h
  | cons x xs ih =>
    cases hxs : xs with
    | nil =>
      simp only [List.foldr_cons, hxs, List.foldr_nil]
      rw [Nat.max_eq_left (Nat.zero_le x)]
      exact List.mem_cons_self _ _
    | cons y ys =>
      rw [← hxs]
      have hne : xs ≠ [] := by rw [hxs]; exact List.cons_ne_nil _ _
      rcases Nat.le_total (xs.foldr max 0) x with hle | hle
      · rw [List.foldr_cons, Nat.max_eq_left hle]
        exact List.mem_cons_self _ _
      · rw [List.foldr_cons, Nat.max_eq_right hle]
        exact List.mem_cons_of_mem _ (ih hne)

theorem foldr_max_lt_iff {l : List Nat} {m : Nat} (hm : 1 ≤ m) :
    l.foldr max 0 < m ↔ ∀ x ∈ l, x < m := by
  induction l with
  | nil =>
    constructor
    · intro _ x hx
      exact absurd hx (List.not_mem_nil _)
    · intro _
      simpa using hm
  | cons x xs ih =>
    simp only [List.foldr_cons, Nat.max_lt, List.mem_cons, ih]
    constructor
    · rintro ⟨h1, h2⟩ y hy
      rcases hy with heq | hmem
      · subst heq; exact h1
      · exact h2 y hmem
    · intro h
      exact ⟨h x (Or.inl rfl), fun y hy => h y (Or.inr hy)⟩

/-- What one call of `Vocab::merge` does, for any admissible iteration order of
the pair map: it fails, leaving the state untouched, exactly when no pair
reaches `min_freq`; otherwise it commits an entry of maximal aggregate
frequency. -/
theorem mergeWith_spec {v : Vocab C} {entries : List (List C × List (Nat × Nat))}
    {mf : Nat} (hperm : entries.Perm (groupPairs (allPairs v.words))) :
    (v.mergeWith entries mf = (Except.error (), v) ∧
      ∀ e ∈ groupPairs (allPairs v.words), e.2.length < mf) ∨
    (∃ best, best ∈ groupPairs (allPairs v.words) ∧ mf ≤ best.2.length ∧
      best.2.length = maxPairFreq v ∧
      v.mergeWith entries mf =
        (Except.ok (), { words := commitOccs v.words best.1.length best.2
                         tokens := v.tokens.insert best.1 })) := by
  have hpf : (entries.filter (fun e => mf ≤ e.2.length)).Perm
      ((groupPairs (allPairs v.words)).filter (fun e => mf ≤ e.2.length)) :=
    hperm.filter _
  cases hmc : maxByCount (entries.filter (fun e => mf ≤ e.2.length)) with
  | none =>
    left
    have hfe : entries.filter (fun e => mf ≤ e.2.length) = [] :=
      maxByCount_eq_none.mp hmc
    have hge : (groupPairs (allPairs v.words)).filter (fun e => mf ≤ e.2.length) = [] := by
      rw [hfe] at hpf
      exact (List.perm_nil.mp hpf.symm)
    constructor
    · unfold Vocab.mergeWith
      rw [hmc]
    · intro e he
      have := List.filter_eq_nil_iff.mp hge e he
      simp only [decide_eq_true_eq] at this
      omega
  | some best =>
    right
    obtain ⟨hbmem, hball⟩ := maxByCount_spec hmc
    have hbent : best ∈ entries := (List.mem_filter.mp hbmem).1
    have hbcnt : mf ≤ best.2.length := by
      have := (List.mem_filter.mp hbmem).2
      simpa using this
    have hbgp : best ∈ groupPairs (allPairs v.words) := hperm.mem_iff.mp hbent
    refine ⟨best, hbgp, hbcnt, ?_, ?_⟩
    · -- the selected count is the global maximum
      apply Nat.le_antisymm
      · apply le_foldr_max_of_mem
        rw [List.mem_map]
        exact ⟨best, hbgp, rfl⟩
      · have hne : (groupPairs (allPairs v.words)).map (fun e => e.2.length) ≠ [] := by
          intro hnil
          rw [List.map_eq_nil_iff] at hnil
          rw [hnil] at hbgp
          exact List.not_mem_nil _ hbgp
        have hmem := foldr_max_attained hne
        rw [List.mem_map] at hmem
        obtain ⟨e₀, he₀, hcnt₀⟩ := hmem
        have he₀f : e₀ ∈ entries.filter (fun e => mf ≤ e.2.length) := by
          rw [List.mem_filter]
          refine ⟨hperm.mem_iff.mpr he₀, ?_⟩
          simp only [decide_eq_true_eq]
          have : best.2.length ≤ e₀.2.length := by
            rw [hcnt₀]
            apply le_foldr_max_of_mem
            rw [List.mem_map]
            exact ⟨best, hbgp, rfl⟩
          omega
        have := hball e₀ he₀f
        unfold maxPairFreq
        omega
    · unfold Vocab.mergeWith
      rw [hmc]

/-! ### Helpers for constructing reachable states and the claim theorems -/

theorem evolves_merge_ok {ws : List (List C)} {n : Nat} {v : Vocab C}
    (hev : Evolves ws n v) (mf : Nat) (h : (v.merge mf).1 = Except.ok ()) :
    Evolves ws (n + 1) ((v.merge mf).2) := by
  have hpair : v.merge mf = (Except.ok (), (v.merge mf).2) := by
    have heta : v.merge mf = ((v.merge mf).1, (v.merge mf).2) := rfl
    rw [h] at heta
    exact heta
  exact Evolves.stepOk hev (List.Perm.refl _) hpair

theorem evolves_merge_err {ws : List (List C)} {n : Nat} {v : Vocab C}
    (hev : Evolves ws n v) (mf : Nat) (h : (v.merge mf).1 = Except.error ()) :
    Evolves ws n ((v.merge mf).2) := by
  have hpair : v.merge mf = (Except.error (), (v.merge mf).2) := by
    have heta : v.merge mf = ((v.merge mf).1, (v.merge mf).2) := rfl
    rw [h] at heta
    exact heta
  exact Evolves.stepErr hev (List.Perm.refl _) hpair

theorem build_trie_ne_nil {ws : List (List C)} {n : Nat} {v : Vocab C}
    (h : Evolves ws n v) : ∀ tok ∈ (Vocab.build v).trie, tok ≠ [] := by
  intro tok htok hnil
  have h2 := (evolves_facts h).1.2 tok htok
  rw [hnil] at h2
  simp at h2

/-- Claim C1: for every Tokenizer built from any reachable Vocab and every
input symbol sequence `w`, `tokenize w` (total by construction) returns a
sequence of spans whose concatenation equals `w` exactly. -/
theorem c1_tokenize_lossless {ws : List (List C)} {n : Nat} {v : Vocab C}
    (h : Evolves ws n v) (w : List C) :
    (((Vocab.build v).tokenize w)).flatten = w :=
  tokenizeFuel_join (build_trie_ne_nil h) (Nat.le_refl _)

/-- Witness for C1: one canonical merge round on the corpus `[[0,1]]`, then a
lossless tokenization of an input mixing known and unknown symbols. -/
theorem c1_witness :
    ((((Vocab.new [[(0 : Nat), 1]]).merge 1).2.build).tokenize [0, 1, 0, 2]).flatten
      = [0, 1, 0, 2] := by
  have hev : Evolves [[(0 : Nat), 1]] 1 (((Vocab.new [[(0 : Nat), 1]]).merge 1).2) :=
    evolves_merge_ok Evolves.base 1 (by decide)
  exact c1_tokenize_lossless hev _

/-- Claim C2 (amended): there is no unigram-seeding first round: every round
counts adjacent pairs, and every Token ever admitted has length at least 2, so
no Symbol is ever present as a length-1 Token. -/
theorem c2_amended {ws : List (List C)} {n : Nat} {v : Vocab C}
    (h : Evolves ws n v) : ∀ t ∈ v.tokens, 2 ≤ t.length :=
  (evolves_facts h).1.2

/-- Witness for C2 (amended): the token inserted by the one successful round
on `[[0,1]]` has length at least 2. -/
theorem c2_witness :
    [(0 : Nat), 1] ∈ (((Vocab.new [[(0 : Nat), 1]]).merge 1).2).tokens ∧
    2 ≤ ([(0 : Nat), 1] : List Nat).length := by
  have hev : Evolves [[(0 : Nat), 1]] 1 (((Vocab.new [[(0 : Nat), 1]]).merge 1).2) :=
    evolves_merge_ok Evolves.base 1 (by decide)
  exact ⟨by decide, c2_amended hev [0, 1] (by decide)⟩

/-- Counterexample to C2 as stated: on corpus `[[0,1]]` the first round
succeeds, the symbol 0 occurs in the corpus, yet `[0]` is not in the
vocabulary as a length-1 token; and on the non-empty corpus `[[0]]` (one
non-empty word of length 1) the first round fails outright. -/
theorem c2_counterexample :
    ((Vocab.new [[(0 : Nat), 1]]).merge 1).1 = Except.ok () ∧
    (0 : Nat) ∈ [[(0 : Nat), 1]].flatten ∧
    [0] ∉ ((Vocab.new [[(0 : Nat), 1]]).merge 1).2.tokens ∧
    [[(0 : Nat)]] ≠ ([] : List (List Nat)) ∧
    ((Vocab.new [[(0 : Nat)]]).merge 1).1 = Except.error () := by
  decide

/-- Claim C3 (amended): at each position the tokenizer emits the longest token
of the index that is a prefix of the remaining input and advances past it;
when no token is a prefix it emits the length-1 span of the symbol there and
advances by one.  (The fallback is not limited to unseen symbols.) -/
theorem c3_amended {ws : List (List C)} {n : Nat} {v : Vocab C}
    (h : Evolves ws n v) {w : List C} (hw : w ≠ []) :
    ((∀ tok ∈ (Vocab.build v).trie, ¬ tok <+: w) →
      (Vocab.build v).tokenize w
          = w.take 1 :: (Vocab.build v).tokenize (w.drop 1) ∧
        (w.take 1).length = 1) ∧
    (∀ tok ∈ (Vocab.build v).trie, tok <+: w →
      ∃ best ∈ (Vocab.build v).trie, best <+: w ∧
        (∀ u ∈ (Vocab.build v).trie, u <+: w → u.length ≤ best.length) ∧
        (Vocab.build v).tokenize w
          = best :: (Vocab.build v).tokenize (w.drop best.length)) := by
  have hne := build_trie_ne_nil h
  constructor
  · intro hnopre
    have hml : matchLens (Vocab.build v).trie w = [] := by
      rw [List.eq_nil_iff_forall_not_mem]
      intro m hm
      obtain ⟨t, ht, hpre, _⟩ := mem_matchLens.mp hm
      exact hnopre t ht hpre
    have hn1 : nextLen (Vocab.build v).trie w = 1 := nextLen_of_nil hml
    constructor
    · have hstep := tokenize_step (t := Vocab.build v) hne hw
      rw [hn1] at hstep
      exact hstep
    · rw [List.length_take]
      have : 0 < w.length := List.length_pos.mpr hw
      omega
  · intro tok htok hpre
    have hml : matchLens (Vocab.build v).trie w ≠ [] := by
      intro hnil
      have hm : tok.length ∈ matchLens (Vocab.build v).trie w :=
        mem_matchLens.mpr ⟨tok, htok, hpre, rfl⟩
      rw [hnil] at hm
      exact List.not_mem_nil _ hm
    obtain ⟨hmem, hbound⟩ := nextLen_spec hml
    obtain ⟨best, hbt, hbpre, hblen⟩ := mem_matchLens.mp hmem
    refine ⟨best, hbt, hbpre, ?_, ?_⟩
    · intro u hu hupre
      have hm : u.length ∈ matchLens (Vocab.build v).trie w :=
        mem_matchLens.mpr ⟨u, hu, hupre, rfl⟩
      rw [hblen]
      exact hbound _ hm
    · have hstep := tokenize_step (t := Vocab.build v) hne hw
      have htake : w.take (nextLen (Vocab.build v).trie w) = best := by
        rw [← hblen]
        obtain ⟨rest, hr⟩ := hbpre
        rw [← hr, List.take_left]
      rw [hstep, htake, hblen]

/-- Witness for C3 (amended): after one round on `[[0,1]]` the token `[0,1]`
is matched greedily at the head of `[0,1,0]`. -/
theorem c3_witness :
    ((∀ tok ∈ (Vocab.build (((Vocab.new [[(0 : Nat), 1]]).merge 1).2)).trie,
        ¬ tok <+: [0, 1, 0]) →
      (Vocab.build (((Vocab.new [[(0 : Nat), 1]]).merge 1).2)).tokenize [0, 1, 0]
          = [0, 1, 0].take 1
            :: (Vocab.build (((Vocab.new [[(0 : Nat), 1]]).merge 1).2)).tokenize
                ([0, 1, 0].drop 1) ∧
        (([0, 1, 0] : List Nat).take 1).length = 1) ∧
    (∀ tok ∈ (Vocab.build (((Vocab.new [[(0 : Nat), 1]]).merge 1).2)).trie,
      tok <+: [0, 1, 0] →
      ∃ best ∈ (Vocab.build (((Vocab.new [[(0 : Nat), 1]]).merge 1).2)).trie,
        best <+: [0, 1, 0] ∧
        (∀ u ∈ (Vocab.build (((Vocab.new [[(0 : Nat), 1]]).merge 1).2)).trie,
          u <+: [0, 1, 0] → u.length ≤ best.length) ∧
        (Vocab.build (((Vocab.new [[(0 : Nat), 1]]).merge 1).2)).tokenize [0, 1, 0]
          = best
            :: (Vocab.build (((Vocab.new [[(0 : Nat), 1]]).merge 1).2)).tokenize
                ([0, 1, 0].drop best.length)) :=
  c3_amended (evolves_merge_ok Evolves.base 1 (by decide)) (by decide)

/-- Counterexample to C3 as stated: the length-1 fallback also fires on
symbols seen during training.  After training on `[[0,1]]` (tokens `{[0,1]}`),
no token is a prefix of `[1]`, so tokenizing `[1]` falls back to a length-1
span even though the symbol 1 occurs in the corpus. -/
theorem c3_counterexample :
    (∀ tok ∈ (Vocab.build (((Vocab.new [[(0 : Nat), 1]]).merge 1).2)).trie,
      ¬ tok <+: [1]) ∧
    (1 : Nat) ∈ [[(0 : Nat), 1]].flatten ∧
    (Vocab.build (((Vocab.new [[(0 : Nat), 1]]).merge 1).2)).tokenize [1] = [[1]] := by
  decide

/-- Claim C4: for `min_freq ≥ 1` and any hash-map iteration order, a merge
round fails exactly when the segmentation has no adjacent pair at all or the
maximal aggregate pair frequency is below `min_freq`; the failure is the
distinguishable `Except.error` value; on success the committed entry has
maximal aggregate frequency. -/
theorem c4_merge_failure_iff {v : Vocab C}
    {entries : List (List C × List (Nat × Nat))} {mf : Nat} (hmf : 1 ≤ mf)
    (hperm : entries.Perm (groupPairs (allPairs v.words))) :
    ((v.mergeWith entries mf).1 = Except.error () ↔
      allPairs v.words = [] ∨ maxPairFreq v < mf) ∧
    (∀ v', v.mergeWith entries mf = (Except.ok (), v') →
      ∃ best ∈ groupPairs (allPairs v.words), mf ≤ best.2.length ∧
        best.2.length = maxPairFreq v ∧ v'.tokens = v.tokens.insert best.1) := by
  rcases @mergeWith_spec C _ v entries mf hperm with ⟨herr, hall⟩ |
    ⟨best, hbgp, hbcnt, hbmax, hok⟩
  · constructor
    · constructor
      · intro _
        right
        unfold maxPairFreq
        rw [foldr_max_lt_iff hmf]
        intro x hx
        rw [List.mem_map] at hx
        obtain ⟨e, he, hxe⟩ := hx
        rw [← hxe]
        exact hall e he
      · intro _
        rw [herr]
    · intro v' hok
      rw [herr] at hok
      exact absurd (congrArg Prod.fst hok) (by simp)
  · constructor
    · constructor
      · intro herr1
        rw [hok] at herr1
        exact absurd herr1 (by simp)
      · rintro (hnil | hlt)
        · exfalso
          have hgp : groupPairs (allPairs v.words) = [] := by
            rw [hnil]
            rfl
          rw [hgp] at hbgp
          exact List.not_mem_nil _ hbgp
        · omega
    · intro v' hv'
      rw [hok] at hv'
      have hveq := congrArg Prod.snd hv'
      simp only at hveq
      exact ⟨best, hbgp, hbcnt, hbmax, by rw [← hveq]⟩

/-- Witness for C4: both sides exercised — a failing round at `min_freq = 2`
on `[[0,1]]` (max frequency 1) and the success clause at `min_freq = 1`. -/
theorem c4_witness :
    ((((Vocab.new [[(0 : Nat), 1]]).merge 2).1 = Except.error () ↔
      allPairs (Vocab.new [[(0 : Nat), 1]]).words = []
        ∨ maxPairFreq (Vocab.new [[(0 : Nat), 1]]) < 2) ∧
    (∀ v', (Vocab.new [[(0 : Nat), 1]]).mergeWith
        (groupPairs (allPairs (Vocab.new [[(0 : Nat), 1]]).words)) 2
          = (Except.ok (), v') →
      ∃ best ∈ groupPairs (allPairs (Vocab.new [[(0 : Nat), 1]]).words),
        2 ≤ best.2.length ∧
        best.2.length = maxPairFreq (Vocab.new [[(0 : Nat), 1]]) ∧
        v'.tokens = (Vocab.new [[(0 : Nat), 1]]).tokens.insert best.1)) :=
  c4_merge_failure_iff (by decide) (List.Perm.refl _)

/-- Claim C5 (amended): there is no unigram seeding, so no
`(number of distinct symbols)` base exists: after `k` successful rounds the
vocabulary holds at most `k` tokens; each successful round inserts exactly the
merged token — one more token when it is new, none otherwise — and never
removes one. -/
theorem c5_amended :
    (∀ (ws : List (List C)) (n : Nat) (v : Vocab C), Evolves ws n v →
      v.tokens.length ≤ n) ∧
    (∀ (v v' : Vocab C) (entries : List (List C × List (Nat × Nat))) (mf : Nat),
      v.mergeWith entries mf = (Except.ok (), v') →
      ∃ k, v'.tokens = v.tokens.insert k ∧ (∀ t ∈ v.tokens, t ∈ v'.tokens) ∧
        v'.tokens.length ≤ v.tokens.length + 1 ∧
        (k ∉ v.tokens → v'.tokens.length = v.tokens.length + 1)) := by
  constructor
  · intro ws n v h
    exact (evolves_facts h).2.2
  · intro v v' entries mf hok
    obtain ⟨best, _, hv'⟩ := mergeWith_ok hok
    refine ⟨best.1, by rw [hv'], ?_, ?_, ?_⟩
    · intro t ht
      rw [hv']
      simp only
      rw [List.mem_insert_iff]
      exact Or.inr ht
    · rw [hv']
      simp only
      by_cases hmem : best.1 ∈ v.tokens
      · rw [List.length_insert_of_mem hmem]
        omega
      · rw [List.length_insert_of_not_mem hmem]
    · intro hmem
      rw [hv']
      simp only
      rw [List.length_insert_of_not_mem hmem]

/-- Witness for C5 (amended): after one successful round the vocabulary has at
most one token. -/
theorem c5_witness :
    (((Vocab.new [[(0 : Nat), 1]]).merge 1).2).tokens.length ≤ 1 :=
  c5_amended.1 _ _ _ (evolves_merge_ok Evolves.base 1 (by decide))

/-- Counterexample to C5 as stated: on corpus `[[0,1]]` (2 distinct symbols),
after `k = 1` successful round the vocabulary holds 1 token, not `2 + 1`. -/
theorem c5_counterexample :
    ((Vocab.new [[(0 : Nat), 1]]).merge 1).1 = Except.ok () ∧
    ([[(0 : Nat), 1]].flatten).dedup.length = 2 ∧
    ((Vocab.new [[(0 : Nat), 1]]).merge 1).2.tokens.length = 1 ∧
    ((Vocab.new [[(0 : Nat), 1]]).merge 1).2.tokens.length ≠ 2 + 1 := by
  decide

/-- Claim C6: for every word retained at ingestion, after any sequence of
merge calls (successful or failed), the spans read off the `token_head`
markers from position 0 tile the word exactly: non-empty consecutive slices
whose concatenation reproduces the ingested word unchanged. -/
theorem c6_spans_partition {ws : List (List C)} {n : Nat} {v : Vocab C}
    (h : Evolves ws n v) :
    v.words.map charsOf = ws.filter (fun w => !w.isEmpty) ∧
    ∀ w ∈ v.words, (spansOf w).flatten = charsOf w ∧ ∀ s ∈ spansOf w, s ≠ [] := by
  obtain ⟨hg, hchars, _⟩ := evolves_facts h
  exact ⟨hchars, fun w hw => spansOf_join (hg.1 w hw).2⟩

/-- Witness for C6 on `[[0,0,0]]`, whose single round commits overlapping
occurrences of the pair `[0,0]` (the stale-marker case). -/
theorem c6_witness :
    (((Vocab.new [[(0 : Nat), 0, 0]]).merge 1).2).words.map charsOf
        = [[(0 : Nat), 0, 0]].filter (fun w => !w.isEmpty) ∧
    ∀ w ∈ (((Vocab.new [[(0 : Nat), 0, 0]]).merge 1).2).words,
      (spansOf w).flatten = charsOf w ∧ ∀ s ∈ spansOf w, s ≠ [] :=
  c6_spans_partition (evolves_merge_ok Evolves.base 1 (by decide))

/-- Claim C7: a Tokenizer issued by `build` is an independent snapshot: any
later merge operations on the session leave every previously issued snapshot,
and hence its tokenization of every input, unchanged. -/
theorem c7_snapshot_independent {s : Session C} {ops : List (TrainOp C)}
    {i : Nat} (h : i < s.snaps.length) (w : List C) :
    (runOps s ops).snaps[i]? = s.snaps[i]? ∧
    ((runOps s ops).snaps[i]?).map (fun t => t.tokenize w)
      = (s.snaps[i]?).map (fun t => t.tokenize w) := by
  have main : ∀ (ops : List (TrainOp C)) (s : Session C), i < s.snaps.length →
      (runOps s ops).snaps[i]? = s.snaps[i]? := by
    intro ops
    induction ops with
    | nil =>
      intro s _
      rfl
    | cons op rest ih =>
      intro s₂ hs
      show (runOps (stepOp s₂ op) rest).snaps[i]? = _
      cases op with
      | merge entries mf =>
        rw [ih (stepOp s₂ (TrainOp.merge entries mf)) hs]
        rfl
      | snapshot =>
        have hs' : i < (stepOp s₂ TrainOp.snapshot).snaps.length := by
          show i < (s₂.snaps ++ [s₂.vocab.build]).length
          rw [List.length_append]
          omega
        rw [ih (stepOp s₂ TrainOp.snapshot) hs']
        show (s₂.snaps ++ [s₂.vocab.build])[i]? = s₂.snaps[i]?
        rw [List.getElem?_append, if_pos hs]
  have h1 := main ops s h
  exact ⟨h1, by rw [h1]⟩

/-- Witness for C7: a snapshot taken before a merge and another snapshot is
still the original tokenizer afterwards. -/
theorem c7_witness :
    ((runOps
        (Session.mk (Vocab.new [[(0 : Nat), 1]])
          [(Vocab.new [[(0 : Nat), 1]]).build])
        [TrainOp.merge
            (groupPairs (allPairs (Vocab.new [[(0 : Nat), 1]]).words)) 1,
          TrainOp.snapshot]).snaps[0]?).map (fun t => t.tokenize [0, 1])
      = ((Session.mk (Vocab.new [[(0 : Nat), 1]])
            [(Vocab.new [[(0 : Nat), 1]]).build]).snaps[0]?).map
          (fun t => t.tokenize [0, 1]) :=
  (c7_snapshot_independent (by decide) [0, 1]).2

theorem sliceTok_append (w : List (VocabChar C)) (p a b : Nat) :
    sliceTok w p (a + b) = sliceTok w p a ++ sliceTok w (p + a) b := by
  unfold sliceTok
  rw [List.take_add, List.map_append]
  congr 2
  rw [List.drop_drop]

/-- Claim C8 (amended): within a merge round, pair statistics are keyed by the
concatenated symbol content of the two adjacent spans, not by position: an
entry's occurrence list holds exactly the occurrences whose concatenation
equals its key, each contributing 1 (its word's implicit weight), and each
occurrence's key is its left token's symbols followed by its right token's
symbols — so occurrences with equal left and right tokens always share a key. -/
theorem c8_amended {ws : List (List C)} {n : Nat} {v : Vocab C}
    (h : Evolves ws n v) :
    ∀ e ∈ groupPairs (allPairs v.words),
      (∀ ip : Nat × Nat, ip ∈ e.2 ↔ (e.1, ip.1, ip.2) ∈ allPairs v.words) ∧
      e.2.length = ((allPairs v.words).filter (fun x => x.1 == e.1)).length ∧
      ∀ ip ∈ e.2,
        e.1 = sliceTok (v.words.getD ip.1 []) ip.2
                (headAt (v.words.getD ip.1 []) ip.2)
            ++ sliceTok (v.words.getD ip.1 [])
                (ip.2 + headAt (v.words.getD ip.1 []) ip.2)
                (headAt (v.words.getD ip.1 [])
                  (ip.2 + headAt (v.words.getD ip.1 []) ip.2)) := by
  intro e he
  have hocc := mem_groupPairs he
  refine ⟨?_, ?_, ?_⟩
  · intro ip
    rw [hocc]
    obtain ⟨i, p⟩ := ip
    exact mem_occsOf
  · rw [hocc]
    unfold occsOf
    rw [List.length_map]
  · intro ip hip
    rw [hocc] at hip
    obtain ⟨i, p⟩ := ip
    have hall : (e.1, i, p) ∈ allPairs v.words := mem_occsOf.mp hip
    rw [mem_allPairs] at hall
    obtain ⟨hi, hscan⟩ := hall
    have hg := (evolves_facts h).1
    have hR0 : Reaches (v.words.getD i []) 0 := (hg.1 _ (getD_list_mem hi)).2
    obtain ⟨_, _, _, _, _, _, hk, _⟩ := scanPairs_facts hR0 hscan
    simp only
    rw [hk, sliceTok_append]

/-- Witness for C8 (amended) on a one-round state: in the state reached from
`[[0,1,0]]` by one canonical round, the single entry's occurrence list is
characterised by key equality, and its key is left token ++ right token. -/
theorem c8_witness :
    (((0, 0) : Nat × Nat) ∈ [((0 : Nat), (0 : Nat))] ↔
      ([(0 : Nat), 1, 0], (0 : Nat), (0 : Nat)) ∈
        allPairs (((Vocab.new [[(0 : Nat), 1, 0]]).merge 1).2).words) ∧
    [(0 : Nat), 1, 0]
      = sliceTok ((((Vocab.new [[(0 : Nat), 1, 0]]).merge 1).2).words.getD 0 []) 0
          (headAt ((((Vocab.new [[(0 : Nat), 1, 0]]).merge 1).2).words.getD 0 []) 0)
        ++ sliceTok ((((Vocab.new [[(0 : Nat), 1, 0]]).merge 1).2).words.getD 0 [])
          (0 + headAt ((((Vocab.new [[(0 : Nat), 1, 0]]).merge 1).2).words.getD 0 []) 0)
          (headAt ((((Vocab.new [[(0 : Nat), 1, 0]]).merge 1).2).words.getD 0 [])
            (0 + headAt ((((Vocab.new [[(0 : Nat), 1, 0]]).merge 1).2).words.getD 0 []) 0)) := by
  have hev : Evolves [[(0 : Nat), 1, 0]] 1 (((Vocab.new [[(0 : Nat), 1, 0]]).merge 1).2) :=
    evolves_merge_ok Evolves.base 1 (by decide)
  have h := c8_amended hev ([(0 : Nat), 1, 0], [(0, 0)]) (by decide)
  exact ⟨h.1 (0, 0), h.2.2 (0, 0) (by decide)⟩

/-- Counterexample to C8 as stated: the map key records only the concatenated
content, so two adjacent occurrences whose left tokens differ (`[0]` versus
`[0,0]`) are aggregated under the same key in `c8State`, a well-formed
segmentation state (non-empty words, exact walks, tokens of length ≥ 2).
Under the claim's "only if" they would have to sit in different entries. -/
theorem c8_counterexample :
    (∀ w ∈ c8State.words, w ≠ [] ∧ Reaches w 0) ∧
    (∀ t ∈ c8State.tokens, 2 ≤ t.length) ∧
    groupPairs (allPairs c8State.words)
      = [([0, 0, 1], [(0, 0), (1, 0)])] ∧
    sliceTok (c8State.words.getD 0 []) 0 (headAt (c8State.words.getD 0 []) 0)
      = [0] ∧
    sliceTok (c8State.words.getD 1 []) 0 (headAt (c8State.words.getD 1 []) 0)
      = [0, 0] := by
  decide

/-- Claim C9 (amended): one merge round is a function of the corpus state,
`min_freq` and the hash-map iteration order; whenever a single entry attains
the maximal aggregate frequency, the round's result is moreover independent
of the iteration order. -/
theorem c9_amended {v : Vocab C} {mf : Nat}
    {e₁ e₂ : List (List C × List (Nat × Nat))}
    (h₁ : e₁.Perm (groupPairs (allPairs v.words)))
    (h₂ : e₂.Perm (groupPairs (allPairs v.words)))
    (huniq : ∀ x ∈ groupPairs (allPairs v.words),
      ∀ y ∈ groupPairs (allPairs v.words),
        x.2.length = maxPairFreq v → y.2.length = maxPairFreq v → x = y) :
    v.mergeWith e₁ mf = v.mergeWith e₂ mf := by
  rcases @mergeWith_spec C _ v e₁ mf h₁ with ⟨herr1, hall1⟩ |
    ⟨b₁, hgp1, hcnt1, hmax1, hok1⟩ <;>
    rcases @mergeWith_spec C _ v e₂ mf h₂ with ⟨herr2, hall2⟩ |
      ⟨b₂, hgp2, hcnt2, hmax2, hok2⟩
  · rw [herr1, herr2]
  · exfalso
    have := hall1 b₂ hgp2
    omega
  · exfalso
    have := hall2 b₁ hgp1
    omega
  · have hb : b₁ = b₂ := huniq b₁ hgp1 b₂ hgp2 hmax1 hmax2
    rw [hok1, hok2, hb]

/-- Witness for C9 (amended): on `[[0,1,0,1]]` the pair `[0,1]` is the unique
maximum (frequency 2), so the canonical iteration order and its reverse give
the same round result. -/
theorem c9_witness :
    (Vocab.new [[(0 : Nat), 1, 0, 1]]).mergeWith
        (groupPairs (allPairs (Vocab.new [[(0 : Nat), 1, 0, 1]]).words)) 1
      = (Vocab.new [[(0 : Nat), 1, 0, 1]]).mergeWith
        ((groupPairs (allPairs (Vocab.new [[(0 : Nat), 1, 0, 1]]).words)).reverse) 1 :=
  c9_amended (List.Perm.refl _) (List.reverse_perm _) (by decide)

/-- Counterexample to C9 as stated: on `[[0,1,2,3]]` three pairs tie at
frequency 1; two admissible hash-map iteration orders (the canonical grouping
and its reverse — a permutation of it) produce different vocabularies, and
the resulting tokenizers split `[0,1]` differently. -/
theorem c9_counterexample :
    ((groupPairs (allPairs (Vocab.new [[(0 : Nat), 1, 2, 3]]).words)).reverse).Perm
      (groupPairs (allPairs (Vocab.new [[(0 : Nat), 1, 2, 3]]).words)) ∧
    (((Vocab.new [[(0 : Nat), 1, 2, 3]]).mergeWith
        (groupPairs (allPairs (Vocab.new [[(0 : Nat), 1, 2, 3]]).words)) 1).2).tokens
      ≠ (((Vocab.new [[(0 : Nat), 1, 2, 3]]).mergeWith
        ((groupPairs (allPairs (Vocab.new [[(0 : Nat), 1, 2, 3]]).words)).reverse) 1).2).tokens ∧
    ((((Vocab.new [[(0 : Nat), 1, 2, 3]]).mergeWith
        (groupPairs (allPairs (Vocab.new [[(0 : Nat), 1, 2, 3]]).words)) 1).2).build).tokenize
        [0, 1]
      ≠ ((((Vocab.new [[(0 : Nat), 1, 2, 3]]).mergeWith
        ((groupPairs (allPairs (Vocab.new [[(0 : Nat), 1, 2, 3]]).words)).reverse) 1).2).build).tokenize
        [0, 1] := by
  decide

/-- Claim C10: whenever merge returns the failure result, the Vocab is left
exactly as it was: the whole state, the token set and every word's
`token_head` markers are unchanged (atomicity on error). -/
theorem c10_merge_error_atomic {v v' : Vocab C}
    {entries : List (List C × List (Nat × Nat))} {mf : Nat} {r : Unit}
    (h : v.mergeWith entries mf = (Except.error r, v')) :
    v' = v ∧ v'.tokens = v.tokens ∧
      ∀ i q, headAt (v'.words.getD i []) q = headAt (v.words.getD i []) q := by
  have hv := mergeWith_error h
  exact ⟨hv, by rw [hv], fun i q => by rw [hv]⟩

/-- Witness for C10: the failing round on the single-letter corpus `[[0]]`
leaves the state untouched. -/
theorem c10_witness :
    ((Vocab.new [[(0 : Nat)]]).merge 1).2 = Vocab.new [[(0 : Nat)]] ∧
    ((Vocab.new [[(0 : Nat)]]).merge 1).2.tokens = (Vocab.new [[(0 : Nat)]]).tokens ∧
    ∀ i q, headAt (((Vocab.new [[(0 : Nat)]]).merge 1).2.words.getD i []) q
        = headAt ((Vocab.new [[(0 : Nat)]]).words.getD i []) q := by
  have h : (Vocab.new [[(0 : Nat)]]).mergeWith
      (groupPairs (allPairs (Vocab.new [[(0 : Nat)]]).words)) 1
      = (Except.error (), ((Vocab.new [[(0 : Nat)]]).merge 1).2) := by decide
  exact c10_merge_error_atomic h

end BPE
